import Mathlib

/-!
Verification of the SkyWrite text-correction backend (`src/app.py`).

The program is embedded shallowly: text is `List Char`; the regex-based
rule table of `apply_local_grammar_correction` is embedded as a small
pattern language covering exactly the constructs the source's patterns
use (`\b` word boundaries, case-insensitive literals, character classes,
greedy `+` over a character class, and a single alternation capture
group), with Python `re` scanning semantics (leftmost scan, greedy with
priority-ordered alternatives, non-overlapping matches, all-at-once
substitution).  `enhance_text` is embedded with the external LLM reply
as an explicit parameter (`none` models "SDK/key missing or the
invocation raised"; `some raw` models a reply string), since the network
call itself is outside the program.
-/

namespace SkyWrite

/-- ASCII lower-casing, as Python's case-insensitive regex flag and
`str.lower()` behave on the ASCII texts at hand. -/
def lowerChar (c : Char) : Char :=
  if 'A' ≤ c ∧ c ≤ 'Z' then Char.ofNat (c.toNat + 32) else c

/-- Python regex word character (`\w`, ASCII part): letter, digit or underscore. -/
def isWordChar (c : Char) : Bool :=
  c.isAlpha || c.isDigit || c == '_'

/-- Python whitespace for `str.strip()` and the regex class `\s` (ASCII part). -/
def isSpC (c : Char) : Bool :=
  c == ' ' || c == '\t' || c == '\n' || c == '\r' || c == '\x0b' || c == '\x0c'

/-- `text.lower()`. -/
def pyLower (l : List Char) : List Char := l.map lowerChar

/-- `text.strip()`: drop leading and trailing whitespace. -/
def pyStrip (l : List Char) : List Char :=
  ((l.dropWhile isSpC).reverse.dropWhile isSpC).reverse

/-- One element of a compiled pattern.  The source's patterns consist of
word boundaries, (case-insensitive) literal characters and character
classes, greedy `+` over a class, and one alternation group that
captures group 1. -/
inductive RElem where
  | wb : RElem
  | cls (p : Char → Bool) : RElem
  | plus (p : Char → Bool) : RElem
  | grp (alts : List (List (Char → Bool))) : RElem

/-- A matcher state: characters consumed so far, the previous original
character (for `\b`), the remaining input, and the group-1 capture. -/
structure MState where
  consumed : Nat
  prev : Option Char
  rest : List Char
  grp : List Char

/-- `\b`: true iff exactly one side is a word character. -/
def atBoundary (prev next : Option Char) : Bool :=
  (match prev with | some c => isWordChar c | none => false) !=
  (match next with | some c => isWordChar c | none => false)

/-- Length of the maximal run of characters satisfying `p`. -/
def maxRun (p : Char → Bool) : List Char → Nat
  | [] => 0
  | c :: cs => if p c then maxRun p cs + 1 else 0

/-- Does the character-predicate list match a prefix of the input? -/
def matchChars : List (Char → Bool) → List Char → Bool
  | [], _ => true
  | _ :: _, [] => false
  | p :: ps, c :: cs => p c && matchChars ps cs

/-- Last character of `l`, or `prev` if `l` is empty. -/
def lastOr (l : List Char) (prev : Option Char) : Option Char :=
  match l.getLast? with
  | some c => some c
  | none => prev

/-- Advance one pattern element from one state, producing the possible
successor states in backtracking-priority order (greedy `+` longest
first, alternatives in declaration order). -/
def stepElem (e : RElem) (st : MState) : List MState :=
  match e with
  | .wb => if atBoundary st.prev st.rest.head? then [st] else []
  | .cls p =>
      match st.rest with
      | [] => []
      | c :: cs => if p c then [⟨st.consumed + 1, some c, cs, st.grp⟩] else []
  | .plus p =>
      let m := maxRun p st.rest
      (List.range m).map (fun i =>
        let k := m - i
        ⟨st.consumed + k, lastOr (st.rest.take k) st.prev, st.rest.drop k, st.grp⟩)
  | .grp alts =>
      alts.flatMap (fun alt =>
        if matchChars alt st.rest then
          [⟨st.consumed + alt.length, lastOr (st.rest.take alt.length) st.prev,
            st.rest.drop alt.length, st.rest.take alt.length⟩]
        else [])

/-- Advance one pattern element from a priority-ordered list of states. -/
def stepStates (sts : List MState) (e : RElem) : List MState :=
  sts.flatMap (stepElem e)

/-- Try the whole pattern at the current position.  The head of the
final state list is the backtracking-first (Python `re`) match; returns
the consumed length and the group-1 capture. -/
def matchAt (pat : List RElem) (prev : Option Char) (l : List Char) :
    Option (Nat × List Char) :=
  (pat.foldl stepStates [⟨0, prev, l, []⟩]).head?.map (fun st => (st.consumed, st.grp))

/-- A piece of a replacement template: literal text or the group-1 backreference. -/
inductive ReplPart where
  | str (s : List Char) : ReplPart
  | g1 : ReplPart
deriving DecidableEq

/-- Expand a replacement template with the group-1 capture. -/
def expandRepl (repl : List ReplPart) (g : List Char) : List Char :=
  repl.flatMap (fun p => match p with | .str s => s | .g1 => g)

/-- One left-to-right scan, as `re.finditer` and `re.sub` perform on the
same text: returns the list of matched spans (in scan order) and the
substituted text.  After a match the scan resumes right after it, with
the previous character taken from the original text.  (None of the
source's patterns can match the empty string; a zero-width match is
skipped like a non-match.) -/
def scanAuxF (pat : List RElem) (repl : List ReplPart) :
    Nat → Option Char → List Char → List (List Char) × List Char
  | _, _, [] => ([], [])
  | 0, _, _ :: _ => ([], [])
  | fuel + 1, prev, c :: cs =>
    match matchAt pat prev (c :: cs) with
    | some (n, g) =>
      if n = 0 then
        let r := scanAuxF pat repl fuel (some c) cs
        (r.1, c :: r.2)
      else
        let span := (c :: cs).take n
        let r := scanAuxF pat repl fuel (lastOr span prev) ((c :: cs).drop n)
        (span :: r.1, expandRepl repl g ++ r.2)
    | none =>
      let r := scanAuxF pat repl fuel (some c) cs
      (r.1, c :: r.2)

/-- The scan with the fuel instantiated to the input length, which always
suffices because every step consumes at least one character. -/
def scanAux (pat : List RElem) (repl : List ReplPart)
    (prev : Option Char) (l : List Char) : List (List Char) × List Char :=
  scanAuxF pat repl l.length prev l

/-- `re.sub(pattern, replacement, text, flags=IGNORECASE)`. -/
def pySub (pat : List RElem) (repl : List ReplPart) (l : List Char) : List Char :=
  (scanAux pat repl none l).2

/-- The spans of `re.finditer(pattern, text, flags=IGNORECASE)`. -/
def pyFindSpans (pat : List RElem) (l : List Char) (repl : List ReplPart) :
    List (List Char) :=
  (scanAux pat repl none l).1

/-- Case-insensitive literal character (the patterns carry `re.IGNORECASE`). -/
def lic (c : Char) : Char → Bool := fun d => lowerChar d == lowerChar c

/-- A literal word as an alternative inside a group. -/
def lstr (s : String) : List (Char → Bool) := s.toList.map lic

/-- A literal word as a pattern-element sequence. -/
def lits (s : String) : List RElem := s.toList.map (fun c => .cls (lic c))

/-- `[a-z]` under `re.IGNORECASE`: any ASCII letter. -/
def azC : Char → Bool := fun c => 'a' ≤ lowerChar c && lowerChar c ≤ 'z'

/-- A literal space (the `"  +"` pattern; spaces are unaffected by case folding). -/
def sp1 : Char → Bool := fun c => c == ' '

/-- Literal replacement text. -/
def rstr (s : String) : ReplPart := .str s.toList

/-- One correction rule: compiled pattern, replacement template and its
human-readable reason.  Every rule in the source sets `is_regex=True`,
so the plain-string branch of the application loop is dead code and is
not modelled; the per-rule `try/except` can likewise never fire for
these well-formed static patterns. -/
structure Rule where
  pat : List RElem
  repl : List ReplPart
  reason : List Char

/-- The ninth rule, `(r"\bthere\s+(is|are)\b", r"there \1")`: its
replacement starts with the literal lowercase word `there`. -/
def thereRule : Rule :=
  ⟨[.wb] ++ lits "there" ++ [.plus isSpC, .grp [lstr "is", lstr "are"], .wb],
    [rstr "there ", .g1], "Phrase: \"there is/are\" is correct".toList⟩

/-- The source's `grammar_rules` table, in declaration order. -/
def grammar_rules : List Rule := [
  -- (r'\bi\b', 'I')
  ⟨[.wb] ++ lits "i" ++ [.wb], [rstr "I"],
    "Capitalization: pronoun \"i\" → \"I\"".toList⟩,
  -- (r'\b([Hh]e|[Ss]he|[Ii]t)\s+are\b', r'\1 is')
  ⟨[.wb, .grp [lstr "he", lstr "she", lstr "it"], .plus isSpC] ++ lits "are" ++ [.wb],
    [.g1, rstr " is"], "Subject-verb agreement: \"are\" → \"is\"".toList⟩,
  -- (r'\b([Ii]|[Yy]ou|[Ww]e|[Tt]hey|people)\s+is\b', r'\1 are')
  ⟨[.wb, .grp [lstr "i", lstr "you", lstr "we", lstr "they", lstr "people"],
      .plus isSpC] ++ lits "is" ++ [.wb],
    [.g1, rstr " are"], "Subject-verb agreement: \"is\" → \"are\"".toList⟩,
  -- (r'\b([Hh]e|[Ss]he|[Ii]t)\s+have\b', r'\1 has')
  ⟨[.wb, .grp [lstr "he", lstr "she", lstr "it"], .plus isSpC] ++ lits "have" ++ [.wb],
    [.g1, rstr " has"], "Subject-verb agreement: \"have\" → \"has\"".toList⟩,
  -- (r'\b([Ii]|[Yy]ou|[Ww]e|[Tt]hey)\s+has\b', r'\1 have')
  ⟨[.wb, .grp [lstr "i", lstr "you", lstr "we", lstr "they"], .plus isSpC] ++
      lits "has" ++ [.wb],
    [.g1, rstr " have"], "Subject-verb agreement: \"has\" → \"have\"".toList⟩,
  -- (r"\byour\s+(going|coming|doing|making|taking)\b", r"you're \1")
  ⟨[.wb] ++ lits "your" ++
      [.plus isSpC, .grp [lstr "going", lstr "coming", lstr "doing",
        lstr "making", lstr "taking"], .wb],
    [rstr "you're ", .g1], "Contraction: \"your\" → \"you're\"".toList⟩,
  -- (r"\bits\s+([a-z])", r"it's \1")
  ⟨[.wb] ++ lits "its" ++ [.plus isSpC, .grp [[azC]]],
    [rstr "it's ", .g1], "Contraction: \"its\" → \"it's\"".toList⟩,
  -- (r"\btheir\s+(going|coming|doing)\b", r"they're \1")
  ⟨[.wb] ++ lits "their" ++
      [.plus isSpC, .grp [lstr "going", lstr "coming", lstr "doing"], .wb],
    [rstr "they're ", .g1], "Contraction: \"their\" → \"they're\"".toList⟩,
  -- (r"\bthere\s+(is|are)\b", r"there \1")
  thereRule,
  -- (r"\brecieve\b", 'receive')
  ⟨[.wb] ++ lits "recieve" ++ [.wb], [rstr "receive"],
    "Spelling: \"recieve\" → \"receive\"".toList⟩,
  -- (r"\boccured\b", 'occurred')
  ⟨[.wb] ++ lits "occured" ++ [.wb], [rstr "occurred"],
    "Spelling: \"occured\" → \"occurred\"".toList⟩,
  -- (r"\bseperate\b", 'separate')
  ⟨[.wb] ++ lits "seperate" ++ [.wb], [rstr "separate"],
    "Spelling: \"seperate\" → \"separate\"".toList⟩,
  -- (r"\bneccessary\b", 'necessary')
  ⟨[.wb] ++ lits "neccessary" ++ [.wb], [rstr "necessary"],
    "Spelling: \"neccessary\" → \"necessary\"".toList⟩,
  -- (r"\bdefinately\b", 'definitely')
  ⟨[.wb] ++ lits "definately" ++ [.wb], [rstr "definitely"],
    "Spelling: \"definately\" → \"definitely\"".toList⟩,
  -- (r"\baccross\b", 'across')
  ⟨[.wb] ++ lits "accross" ++ [.wb], [rstr "across"],
    "Spelling: \"accross\" → \"across\"".toList⟩,
  -- (r"\bwether\b", 'whether')
  ⟨[.wb] ++ lits "wether" ++ [.wb], [rstr "whether"],
    "Spelling: \"wether\" → \"whether\"".toList⟩,
  -- (r"\bwould\s+of\b", 'would have')
  ⟨[.wb] ++ lits "would" ++ [.plus isSpC] ++ lits "of" ++ [.wb],
    [rstr "would have"], "Grammar: \"would of\" → \"would have\"".toList⟩,
  -- (r"\bcould\s+of\b", 'could have')
  ⟨[.wb] ++ lits "could" ++ [.plus isSpC] ++ lits "of" ++ [.wb],
    [rstr "could have"], "Grammar: \"could of\" → \"could have\"".toList⟩,
  -- (r"\bshould\s+of\b", 'should have')
  ⟨[.wb] ++ lits "should" ++ [.plus isSpC] ++ lits "of" ++ [.wb],
    [rstr "should have"], "Grammar: \"should of\" → \"should have\"".toList⟩,
  -- (r"\blot\s+of\b", 'lot of')
  ⟨[.wb] ++ lits "lot" ++ [.plus isSpC] ++ lits "of" ++ [.wb],
    [rstr "lot of"], "Grammar: correct usage of \"lot of\"".toList⟩,
  -- (r"  +", ' ')
  ⟨[.cls sp1, .plus sp1], [rstr " "], "Spacing: remove extra spaces".toList⟩]

/-- One reported improvement (the source's `corrections` entries). -/
structure Correction where
  original : List Char
  fixed : List Char
  reason : List Char
deriving DecidableEq

/-- The body of the source's per-rule loop: record improvements for each
match of the rule in the current text (skipping no-op fixes, and
case-insensitively deduplicating `original` against everything already
collected), then substitute the rule over the whole text. -/
def applyRule (se : Bool) (st : List Char × List Correction) (r : Rule) :
    List Char × List Correction :=
  let scanned := scanAux r.pat r.repl none st.1
  let corrections := scanned.1.foldl (fun acc original =>
    let fixed := pySub r.pat r.repl original
    if original ≠ fixed ∧ se = true then
      if acc.any (fun c => pyLower c.original == pyLower original) then acc
      else acc ++ [⟨original, fixed, r.reason⟩]
    else acc) st.2
  (scanned.2, corrections)

/-- The payload produced by `apply_local_grammar_correction`. -/
structure LocalResult where
  correctedText : List Char
  improvements : List Correction
deriving DecidableEq

/-- `apply_local_grammar_correction(text, tone, show_explanations)`:
apply the rules in order, then strip the result and cap the
improvements at 10.  (`tone` is accepted and ignored, as in the
source.)  The source returns this payload serialized with
`json.dumps`; the serialization round-trips through the `json.loads`
in `enhance_text` and is modelled there. -/
def apply_local_grammar_correction (text : List Char) (tone : List Char)
    (show_explanations : Bool) : LocalResult :=
  let st := grammar_rules.foldl (applyRule show_explanations) (text, [])
  ⟨pyStrip st.1, st.2.take 10⟩

/-- JSON values, as `json.loads` produces them (numbers are kept as raw
text; nothing in the program computes with them). -/
inductive Json where
  | jnull : Json
  | jbool (b : Bool) : Json
  | jnum (raw : List Char) : Json
  | jstr (s : List Char) : Json
  | jarr (xs : List Json) : Json
  | jobj (fields : List (List Char × Json)) : Json

/-- Length of a JSON array (0 on other values); used to state size facts
about improvement lists that travel as JSON. -/
def Json.arrLen : Json → Nat
  | .jarr xs => xs.length
  | _ => 0

/-- JSON structural whitespace. -/
def jsonWS (c : Char) : Bool :=
  c == ' ' || c == '\t' || c == '\n' || c == '\r'

/-- Characters that may appear in a JSON number token. -/
def numChar (c : Char) : Bool :=
  c.isDigit || c == '-' || c == '+' || c == '.' || c == 'e' || c == 'E'

/-- Hexadecimal digit value. -/
def hexVal (c : Char) : Option Nat :=
  if '0' ≤ c ∧ c ≤ '9' then some (c.toNat - '0'.toNat)
  else if 'a' ≤ c ∧ c ≤ 'f' then some (c.toNat - 'a'.toNat + 10)
  else if 'A' ≤ c ∧ c ≤ 'F' then some (c.toNat - 'A'.toNat + 10)
  else none

/-- Parse the body of a JSON string after the opening quote; returns the
decoded characters and the remaining input.  (Escapes as in `json.loads`;
surrogate pairs are not needed here.) -/
def parseStringAux : List Char → List Char → Except (List Char) (List Char × List Char)
  | acc, '"' :: rest => .ok (acc.reverse, rest)
  | acc, '\\' :: 'u' :: a :: b :: c :: d :: rest =>
    (match hexVal a, hexVal b, hexVal c, hexVal d with
     | some x, some y, some z, some w =>
         parseStringAux (Char.ofNat (((x * 16 + y) * 16 + z) * 16 + w) :: acc) rest
     | _, _, _, _ => .error "Invalid \\uXXXX escape".toList)
  | acc, '\\' :: e :: rest =>
    if e == '"' then parseStringAux ('"' :: acc) rest
    else if e == '\\' then parseStringAux ('\\' :: acc) rest
    else if e == '/' then parseStringAux ('/' :: acc) rest
    else if e == 'b' then parseStringAux ('\x08' :: acc) rest
    else if e == 'f' then parseStringAux ('\x0c' :: acc) rest
    else if e == 'n' then parseStringAux ('\n' :: acc) rest
    else if e == 'r' then parseStringAux ('\r' :: acc) rest
    else if e == 't' then parseStringAux ('\t' :: acc) rest
    else .error "Invalid \\escape".toList
  | acc, c :: rest => parseStringAux (c :: acc) rest
  | _, [] => .error "Unterminated string".toList

mutual

/-- Parse one JSON value (fuelled; the fuel is sized from the input and
only bounds recursion depth). -/
def parseValue : Nat → List Char → Except (List Char) (Json × List Char)
  | 0, _ => .error "Fuel exhausted".toList
  | fuel + 1, l =>
    match List.dropWhile jsonWS l with
    | 'n' :: 'u' :: 'l' :: 'l' :: rest => .ok (.jnull, rest)
    | 't' :: 'r' :: 'u' :: 'e' :: rest => .ok (.jbool true, rest)
    | 'f' :: 'a' :: 'l' :: 's' :: 'e' :: rest => .ok (.jbool false, rest)
    | '"' :: rest => (parseStringAux [] rest).map (fun p => (.jstr p.1, p.2))
    | '[' :: rest =>
      (match List.dropWhile jsonWS rest with
       | ']' :: rest2 => .ok (.jarr [], rest2)
       | rest2 => parseArrAux fuel [] rest2)
    | '{' :: rest =>
      (match List.dropWhile jsonWS rest with
       | '}' :: rest2 => .ok (.jobj [], rest2)
       | rest2 => parseObjAux fuel [] rest2)
    | c :: rest =>
      if numChar c then
        .ok (.jnum (List.takeWhile numChar (c :: rest)),
             List.dropWhile numChar (c :: rest))
      else .error "Expecting value".toList
    | [] => .error "Expecting value".toList

/-- Parse the elements of a non-empty JSON array. -/
def parseArrAux : Nat → List Json → List Char → Except (List Char) (Json × List Char)
  | 0, _, _ => .error "Fuel exhausted".toList
  | fuel + 1, acc, l =>
    match parseValue fuel l with
    | .error e => .error e
    | .ok (v, rest) =>
      match List.dropWhile jsonWS rest with
      | ',' :: rest2 => parseArrAux fuel (v :: acc) rest2
      | ']' :: rest2 => .ok (.jarr (v :: acc).reverse, rest2)
      | _ => .error "Expecting delimiter".toList

/-- Parse the members of a non-empty JSON object. -/
def parseObjAux : Nat → List (List Char × Json) → List Char →
    Except (List Char) (Json × List Char)
  | 0, _, _ => .error "Fuel exhausted".toList
  | fuel + 1, acc, l =>
    match List.dropWhile jsonWS l with
    | '"' :: rest =>
      (match parseStringAux [] rest with
       | .error e => .error e
       | .ok (k, rest2) =>
         match List.dropWhile jsonWS rest2 with
         | ':' :: rest3 =>
           (match parseValue fuel rest3 with
            | .error e => .error e
            | .ok (v, rest4) =>
              match List.dropWhile jsonWS rest4 with
              | ',' :: rest5 => parseObjAux fuel ((k, v) :: acc) rest5
              | '}' :: rest5 => .ok (.jobj ((k, v) :: acc).reverse, rest5)
              | _ => .error "Expecting delimiter".toList)
         | _ => .error "Expecting colon".toList)
    | _ => .error "Expecting property name".toList

end

/-- `json.loads(text)`: parse one value and require only whitespace after it. -/
def parseJson (l : List Char) : Except (List Char) Json :=
  match parseValue (2 * l.length + 2) l with
  | .error e => .error e
  | .ok (v, rest) =>
    if List.dropWhile jsonWS rest = [] then .ok v
    else .error "Extra data".toList

/-- Python `dict.get(key)` on a parsed JSON object (later duplicate keys win). -/
def jget (fields : List (List Char × Json)) (key : List Char) : Option Json :=
  fields.foldl (fun acc kv => if kv.1 == key then some kv.2 else acc) none

/-- `l` starts with `pre`. -/
def startsWith (pre l : List Char) : Bool := List.isPrefixOf pre l

/-- `l` ends with `suf`. -/
def endsWith (suf l : List Char) : Bool := List.isPrefixOf suf.reverse l.reverse

/-- The code-fence cleanup in `enhance_text`: drop a leading "```json",
then a leading "```", then a trailing "```", each only if present, in
that order. -/
def stripFences (l : List Char) : List Char :=
  let l1 := if startsWith "```json".toList l then l.drop 7 else l
  let l2 := if startsWith "```".toList l1 then l1.drop 3 else l1
  if endsWith "```".toList l2 then l2.take (l2.length - 3) else l2

/-- A reported improvement as the JSON payload carries it. -/
def correctionToJson (c : Correction) : Json :=
  .jobj [("original".toList, .jstr c.original), ("fixed".toList, .jstr c.fixed),
         ("reason".toList, .jstr c.reason)]

/-- The JSON object that `apply_local_grammar_correction` serializes with
`json.dumps`. -/
def localPayload (text tone : List Char) (se : Bool) : Json :=
  let r := apply_local_grammar_correction text tone se
  .jobj [("correctedText".toList, .jstr r.correctedText),
         ("improvements".toList, .jarr (r.improvements.map correctionToJson))]

/-- The dictionary `enhance_text` returns (an `error` field only on the
terminal failure path). -/
structure EnhanceResult where
  correctedText : Json
  improvements : Json
  error : Option (List Char)

/-- `enhance_text(text, tone, show_explanations)`.

`llm` is the outcome of the guarded Gemini call: `none` when the SDK or a
real key is absent, or when `generate_content` raised — in all those
cases the source sets `result_text` to the `json.dumps` of the local
corrector's payload, which starts with a brace, so the fence cleanup
does nothing and `json.loads` round-trips it; this is modelled as the
payload directly.  `some raw` is a received reply text, which goes
through strip / fence cleanup / strip / `json.loads`.  The source's
outer `try/except` corresponds to the two failure outcomes here: a
parse failure, or `.get` on a non-dict parse result (`AttributeError`);
both return the original text with the exception text in `error`. -/
def enhance_text (llm : Option (List Char)) (text tone : List Char)
    (show_explanations : Bool) : EnhanceResult :=
  let parsed : Except (List Char) Json :=
    match llm with
    | some raw => parseJson (pyStrip (stripFences (pyStrip raw)))
    | none => .ok (localPayload text tone show_explanations)
  match parsed with
  | .error e => ⟨.jstr text, .jarr [], some e⟩
  | .ok (.jobj fields) =>
      ⟨(jget fields "correctedText".toList).getD (.jstr text),
       if show_explanations then (jget fields "improvements".toList).getD (.jarr [])
       else .jarr [],
       none⟩
  | .ok _ => ⟨.jstr text, .jarr [], some "AttributeError: get".toList⟩

/-- The `POST /api/enhance` handler: the request's `text` field (absent
or a string), `tone` and `showExplanations` after their `data.get`
defaults; returns the HTTP status and JSON body. -/
def api_enhance (llm : Option (List Char)) (textField : Option (List Char))
    (tone : List Char) (show_explanations : Bool) : Nat × Json :=
  let text := textField.getD []
  if text = [] ∨ pyStrip text = [] then
    (400, .jobj [("error".toList, .jstr "Text is required".toList)])
  else
    let result := enhance_text llm text tone show_explanations
    match result.error with
    | some e => (500, .jobj [("error".toList, .jstr e)])
    | none => (200, .jobj [("correctedText".toList, result.correctedText),
                           ("improvements".toList, result.improvements)])

/-- `os.getenv('GEMINI_API_KEY', 'your-api-key-here')`: the environment
value when the variable is set (possibly to the empty string), else the
placeholder default. -/
def GEMINI_API_KEY (env : Option (List Char)) : List Char :=
  env.getD "your-api-key-here".toList

/-- `bool(GEMINI_API_KEY and GEMINI_API_KEY != 'your-api-key-here')`, the
`api_configured` value of the health check. -/
def api_configured (env : Option (List Char)) : Bool :=
  (GEMINI_API_KEY env != []) && (GEMINI_API_KEY env != "your-api-key-here".toList)

/-- The `GET /api/health` body (`now` stands for `datetime.now().isoformat()`). -/
def health_check (env : Option (List Char)) (now : List Char) : Json :=
  .jobj [("status".toList, .jstr "healthy".toList),
         ("timestamp".toList, .jstr now),
         ("api_configured".toList, .jbool (api_configured env))]

/-- The list is empty or starts with a non-word character (so a leading
occurrence of a word is followed by a `\b` boundary). -/
def headNonWord : List Char → Bool
  | [] => true
  | c :: _ => !isWordChar c

/-- No match of `pat` starts inside the prefix `pre` when it is followed
by `t` (with `prev` the character before the prefix): position-by-position
failure of `matchAt` along the prefix. -/
def NoMatchAlong (pat : List RElem) : List Char → List Char → Option Char → Prop
  | [], _, _ => True
  | c :: cs, t, prev =>
      matchAt pat prev (c :: cs ++ t) = none ∧ NoMatchAlong pat cs t (some c)

/-- The template contains a literal non-whitespace character (so every
expansion of it does, whatever the capture). -/
def replInk (repl : List ReplPart) : Bool :=
  repl.any (fun p => match p with | .str s => s.any (fun c => !isSpC c) | .g1 => false)

/-- Substitution by the rule preserves the presence of non-whitespace
characters in the text. -/
def RulePres (r : Rule) : Prop :=
  ∀ prev l, (∃ c ∈ l, isSpC c = false) →
    ∃ c ∈ (scanAux r.pat r.repl prev l).2, isSpC c = false

/-! ## Basic lemmas about the engine -/

/-- Folding pattern elements over an empty state frontier stays empty. -/
theorem foldl_stepStates_nil (es : List RElem) :
    es.foldl stepStates [] = [] := by
  induction es with
  | nil => rfl
  | cons e es ih => simpa [stepStates] using ih

/-- Folding a function that ignores its second argument keeps the accumulator. -/
theorem foldl_keep {α β : Type} (a : α) (l : List β) :
    l.foldl (fun acc _ => acc) a = a := by
  induction l generalizing a with
  | nil => rfl
  | cons x xs ih => exact ih a

/-- With `show_explanations = False` the per-rule loop never appends a
correction. -/
theorem applyRule_false_snd (st : List Char × List Correction) (r : Rule) :
    (applyRule false st r).2 = st.2 := by
  simp [applyRule, foldl_keep]

/-- With `show_explanations = False` the whole rule pipeline collects no
corrections. -/
theorem foldl_applyRule_false_snd (rs : List Rule) (st : List Char × List Correction) :
    (rs.foldl (applyRule false) st).2 = st.2 := by
  induction rs generalizing st with
  | nil => rfl
  | cons r rs ih => rw [List.foldl_cons, ih, applyRule_false_snd]

/-- Characters surviving the leading `dropWhile` determine whether all of
the list satisfied the predicate. -/
theorem dropWhile_forall_iff (p : Char → Bool) (l : List Char) :
    (∀ c ∈ l.dropWhile p, p c = true) ↔ (∀ c ∈ l, p c = true) := by
  constructor
  · intro h c hc
    have hc' : c ∈ l.takeWhile p ++ l.dropWhile p := by
      rw [List.takeWhile_append_dropWhile]; exact hc
    rcases List.mem_append.mp hc' with h' | h'
    · exact List.mem_takeWhile_imp h'
    · exact h c h'
  · intro h c hc
    exact h c ((List.dropWhile_sublist (p := p) (l := l)).mem hc)

/-- `text.strip()` is empty exactly when the text is all whitespace. -/
theorem pyStrip_eq_nil_iff (l : List Char) :
    pyStrip l = [] ↔ ∀ c ∈ l, isSpC c = true := by
  rw [pyStrip, List.reverse_eq_nil_iff, List.dropWhile_eq_nil_iff]
  constructor
  · intro h
    rw [← dropWhile_forall_iff isSpC l]
    intro c hc; exact h c (List.mem_reverse.mpr hc)
  · intro h c hc
    exact (dropWhile_forall_iff isSpC l).mpr h c (List.mem_reverse.mp hc)

/-- A template with a literal non-whitespace character expands to text
with a non-whitespace character, whatever the capture. -/
theorem expandRepl_ink (repl : List ReplPart) (h : replInk repl = true) (g : List Char) :
    ∃ c ∈ expandRepl repl g, isSpC c = false := by
  rw [replInk, List.any_eq_true] at h
  obtain ⟨part, hp, hpart⟩ := h
  cases part with
  | g1 => simp at hpart
  | str s =>
    simp only [List.any_eq_true, Bool.not_eq_true'] at hpart
    obtain ⟨c, hc, hcs⟩ := hpart
    exact ⟨c, List.mem_flatMap.mpr ⟨.str s, hp, hc⟩, hcs⟩

/-- Characters within the maximal run all satisfy the run's predicate. -/
theorem take_maxRun_all (p : Char → Bool) (l : List Char) :
    ∀ c ∈ l.take (maxRun p l), p c = true := by
  induction l with
  | nil => simp
  | cons c cs ih =>
    by_cases hc : p c
    · rw [maxRun, if_pos hc]
      intro d hd
      rcases List.mem_cons.mp (by simpa using hd) with h' | h'
      · subst h'; exact hc
      · exact ih d h'
    · rw [maxRun, if_neg hc]
      simp

/-- A match of the `"  +"` pattern consumes only spaces. -/
theorem spacing_match_space (prev : Option Char) (l : List Char) (n : Nat) (g : List Char)
    (hm : matchAt [.cls sp1, .plus sp1] prev l = some (n, g)) :
    ∀ c ∈ l.take n, isSpC c = true := by
  cases l with
  | nil => simp [matchAt, stepStates, stepElem] at hm
  | cons c cs =>
    by_cases hc : sp1 c = true
    · rcases hmr : maxRun sp1 cs with _ | m
      · simp [matchAt, stepStates, stepElem, hc, hmr] at hm
      · simp [matchAt, stepStates, stepElem, hc, hmr, List.range_succ_eq_map] at hm
        obtain ⟨hn, -⟩ := hm
        subst hn
        intro d hd
        have h2 : (1 + (m + 1)) = (m + 1) + 1 := by omega
        rw [h2, List.take_succ_cons] at hd
        have hcsp : c = ' ' := by simpa [sp1] using hc
        rcases List.mem_cons.mp hd with h' | h'
        · subst h'; subst hcsp; decide
        · have hall := take_maxRun_all sp1 cs
          rw [hmr] at hall
          have hsp : sp1 d = true := hall d h'
          have : d = ' ' := by simpa [sp1] using hsp
          subst this; decide
    · simp [matchAt, stepStates, stepElem, hc] at hm

/-- The fuelled scan preserves the presence of non-whitespace when every
match either expands to inked text or consumed only whitespace. -/
theorem scanF_pres (pat : List RElem) (repl : List ReplPart)
    (H : ∀ prev l n g, matchAt pat prev l = some (n, g) → n ≠ 0 →
      (∃ c ∈ expandRepl repl g, isSpC c = false) ∨ (∀ c ∈ l.take n, isSpC c = true)) :
    ∀ (fuel : Nat) (l : List Char) (prev : Option Char), l.length ≤ fuel →
      (∃ c ∈ l, isSpC c = false) →
      ∃ c ∈ (scanAuxF pat repl fuel prev l).2, isSpC c = false := by
  intro fuel
  induction fuel with
  | zero =>
    intro l prev hl hink
    obtain ⟨c, hc, _⟩ := hink
    cases l with
    | nil => cases hc
    | cons c' cs => simp at hl
  | succ f ih =>
    intro l prev hl hink
    cases l with
    | nil => obtain ⟨c, hc, _⟩ := hink; cases hc
    | cons c cs =>
      have hlf : cs.length ≤ f := by simpa using hl
      rcases hm : matchAt pat prev (c :: cs) with - | ⟨n, g⟩
      · simp only [scanAuxF, hm]
        by_cases hcs : isSpC c = false
        · exact ⟨c, by simp, hcs⟩
        · obtain ⟨d, hd, hds⟩ := hink
          have hdcs : d ∈ cs := by
            rcases List.mem_cons.mp hd with h' | h'
            · subst h'; exact absurd hds hcs
            · exact h'
          obtain ⟨e, he, hes⟩ := ih cs (some c) hlf ⟨d, hdcs, hds⟩
          exact ⟨e, by simp [he], hes⟩
      · by_cases hn : n = 0
        · subst hn
          simp only [scanAuxF, hm, if_pos rfl]
          by_cases hcs : isSpC c = false
          · exact ⟨c, by simp, hcs⟩
          · obtain ⟨d, hd, hds⟩ := hink
            have hdcs : d ∈ cs := by
              rcases List.mem_cons.mp hd with h' | h'
              · subst h'; exact absurd hds hcs
              · exact h'
            obtain ⟨e, he, hes⟩ := ih cs (some c) hlf ⟨d, hdcs, hds⟩
            exact ⟨e, by simp [he], hes⟩
        · simp only [scanAuxF, hm, if_neg hn]
          rcases H prev (c :: cs) n g hm hn with hexp | hspan
          · obtain ⟨e, he, hes⟩ := hexp
            exact ⟨e, List.mem_append_left _ he, hes⟩
          · obtain ⟨d, hd, hds⟩ := hink
            have hddrop : d ∈ (c :: cs).drop n := by
              have hsplit : d ∈ (c :: cs).take n ++ (c :: cs).drop n := by
                rw [List.take_append_drop]; exact hd
              rcases List.mem_append.mp hsplit with h' | h'
              · rw [hspan d h'] at hds; cases hds
              · exact h'
            have hlen : ((c :: cs).drop n).length ≤ f := by
              simp only [List.length_drop, List.length_cons]
              omega
            obtain ⟨e, he, hes⟩ :=
              ih ((c :: cs).drop n) (lastOr ((c :: cs).take n) prev) hlen ⟨d, hddrop, hds⟩
            exact ⟨e, List.mem_append_right _ he, hes⟩

/-- Restatement of `scanF_pres` for the fuel-instantiated scan. -/
theorem scan_pres_of (pat : List RElem) (repl : List ReplPart)
    (H : ∀ prev l n g, matchAt pat prev l = some (n, g) → n ≠ 0 →
      (∃ c ∈ expandRepl repl g, isSpC c = false) ∨ (∀ c ∈ l.take n, isSpC c = true)) :
    ∀ prev l, (∃ c ∈ l, isSpC c = false) →
      ∃ c ∈ (scanAux pat repl prev l).2, isSpC c = false := by
  intro prev l hl
  exact scanF_pres pat repl H l.length l prev (Nat.le_refl _) hl

/-- Every rule of the table preserves the presence of non-whitespace:
rules 1–20 insert literal non-whitespace text on every effective match,
and the spacing rule only ever consumes and produces whitespace. -/
theorem grammar_rules_pres : ∀ r ∈ grammar_rules, RulePres r := by
  have hink : ∀ (r : Rule), replInk r.repl = true → RulePres r := by
    intro r hir
    exact scan_pres_of r.pat r.repl
      (fun prev' l' n g _ _ => Or.inl (expandRepl_ink r.repl hir g))
  intro r hr
  simp only [grammar_rules, thereRule, List.mem_cons, List.not_mem_nil, or_false] at hr
  rcases hr with h | h | h | h | h | h | h | h | h | h | h | h | h | h | h | h | h | h | h | h | h
  all_goals subst h
  all_goals first
    | exact hink _ (by decide)
    | exact scan_pres_of [.cls sp1, .plus sp1] [rstr " "]
        (fun prev' l' n g hm _ => Or.inr (spacing_match_space prev' l' n g hm))

/-- The whole rule pipeline preserves the presence of non-whitespace in
the text component. -/
theorem foldl_applyRule_pres (se : Bool) :
    ∀ (rs : List Rule), (∀ r ∈ rs, RulePres r) →
      ∀ st : List Char × List Correction, (∃ c ∈ st.1, isSpC c = false) →
        ∃ c ∈ (rs.foldl (applyRule se) st).1, isSpC c = false := by
  intro rs
  induction rs with
  | nil => intro _ st h; exact h
  | cons r rs ih =>
    intro hall st h
    rw [List.foldl_cons]
    apply ih (fun r' hr' => hall r' (List.mem_cons_of_mem _ hr'))
    have := hall r (List.mem_cons_self _ _) none st.1 h
    simpa [applyRule] using this

/-- The fuel does not matter as long as it covers the input length. -/
theorem scanAuxF_irrel (pat : List RElem) (repl : List ReplPart) :
    ∀ (fuel fuel' : Nat) (prev : Option Char) (l : List Char),
      l.length ≤ fuel → l.length ≤ fuel' →
      scanAuxF pat repl fuel prev l = scanAuxF pat repl fuel' prev l := by
  intro fuel
  induction fuel with
  | zero =>
    intro fuel' prev l h1 h2
    cases l with
    | nil => cases fuel' <;> rfl
    | cons c cs => simp at h1
  | succ f ih =>
    intro fuel' prev l h1 h2
    cases l with
    | nil => cases fuel' <;> rfl
    | cons c cs =>
      cases fuel' with
      | zero => simp at h2
      | succ f' =>
        have hcs : cs.length ≤ f := by simpa using h1
        have hcs' : cs.length ≤ f' := by simpa using h2
        simp only [scanAuxF]
        cases hm : matchAt pat prev (c :: cs) with
        | none => rw [ih f' (some c) cs hcs hcs']
        | some ng =>
          obtain ⟨n, g⟩ := ng
          by_cases hn : n = 0
          · subst hn
            simp only [if_true]
            rw [ih f' (some c) cs hcs hcs']
          · simp only [if_neg hn]
            have hd : ((c :: cs).drop n).length ≤ f := by
              simp only [List.length_drop, List.length_cons]; omega
            have hd' : ((c :: cs).drop n).length ≤ f' := by
              simp only [List.length_drop, List.length_cons]; omega
            rw [ih f' (lastOr ((c :: cs).take n) prev) ((c :: cs).drop n) hd hd']

/-- Unfolding the scan when no match starts at the current position. -/
theorem scanAux_none (pat : List RElem) (repl : List ReplPart) (prev : Option Char)
    (c : Char) (cs : List Char) (hm : matchAt pat prev (c :: cs) = none) :
    scanAux pat repl prev (c :: cs) =
      ((scanAux pat repl (some c) cs).1, c :: (scanAux pat repl (some c) cs).2) := by
  simp only [scanAux, List.length_cons, scanAuxF, hm]

/-- Unfolding the scan at a (non-empty) match: the span is recorded, the
expansion is emitted, and the scan resumes after the consumed prefix. -/
theorem scanAux_match (pat : List RElem) (repl : List ReplPart) (prev : Option Char)
    (l : List Char) (n : Nat) (g : List Char)
    (hm : matchAt pat prev l = some (n, g)) (hn : n ≠ 0) (hl : l ≠ []) :
    scanAux pat repl prev l =
      ((l.take n) :: (scanAux pat repl (lastOr (l.take n) prev) (l.drop n)).1,
       expandRepl repl g ++ (scanAux pat repl (lastOr (l.take n) prev) (l.drop n)).2) := by
  cases l with
  | nil => exact absurd rfl hl
  | cons c cs =>
    simp only [scanAux, List.length_cons, scanAuxF, hm, if_neg hn]
    have hd : ((c :: cs).drop n).length ≤ cs.length := by
      simp only [List.length_drop, List.length_cons]; omega
    rw [scanAuxF_irrel pat repl cs.length ((c :: cs).drop n).length
      (lastOr ((c :: cs).take n) prev) ((c :: cs).drop n) hd (Nat.le_refl _)]

/-- Peeling one character off `lastOr`. -/
theorem lastOr_cons (c : Char) (cs : List Char) (prev : Option Char) :
    lastOr (c :: cs) prev = lastOr cs (some c) := by
  cases cs with
  | nil => rfl
  | cons d ds =>
    obtain ⟨x, hx⟩ : ∃ x, (d :: ds).getLast? = some x := by
      cases h : (d :: ds).getLast? with
      | none => exact absurd h (by simp)
      | some x => exact ⟨x, rfl⟩
    simp [lastOr, hx]

/-- If no match starts anywhere inside the prefix, the scan copies the
prefix unchanged and proceeds on the tail. -/
theorem scan_skip (pat : List RElem) (repl : List ReplPart) :
    ∀ (pre t : List Char) (prev : Option Char), NoMatchAlong pat pre t prev →
      scanAux pat repl prev (pre ++ t) =
        ((scanAux pat repl (lastOr pre prev) t).1,
         pre ++ (scanAux pat repl (lastOr pre prev) t).2) := by
  intro pre
  induction pre with
  | nil => intro t prev _; simp [lastOr]
  | cons c cs ih =>
    intro t prev hnm
    obtain ⟨hm, hrest⟩ := hnm
    rw [List.cons_append, scanAux_none pat repl prev c (cs ++ t) hm, ih t (some c) hrest,
      lastOr_cons]
    simp [List.cons_append]

/-- A fold whose step either keeps or appends one element to the
accumulator only ever extends it. -/
theorem foldl_append_only {α β : Type} (f : List α → β → List α)
    (hf : ∀ acc b, f acc b = acc ∨ ∃ x, f acc b = acc ++ [x]) :
    ∀ (l : List β) (acc : List α), ∃ suf, l.foldl f acc = acc ++ suf := by
  intro l
  induction l with
  | nil => intro acc; exact ⟨[], by simp⟩
  | cons b bs ih =>
    intro acc
    obtain ⟨suf, hs⟩ := ih (f acc b)
    rcases hf acc b with h | ⟨x, h⟩
    · exact ⟨suf, by rw [List.foldl_cons, hs, h]⟩
    · exact ⟨x :: suf, by rw [List.foldl_cons, hs, h, List.append_assoc]; rfl⟩

/-- The per-rule correction collector only appends. -/
theorem applyRule_corr_step (se : Bool) (r : Rule) (acc : List Correction)
    (original : List Char) :
    (fun (acc : List Correction) (original : List Char) =>
      if original ≠ pySub r.pat r.repl original ∧ se = true then
        if acc.any (fun c => pyLower c.original == pyLower original) then acc
        else acc ++ [⟨original, pySub r.pat r.repl original, r.reason⟩]
      else acc) acc original = acc ∨
    ∃ x, (fun (acc : List Correction) (original : List Char) =>
      if original ≠ pySub r.pat r.repl original ∧ se = true then
        if acc.any (fun c => pyLower c.original == pyLower original) then acc
        else acc ++ [⟨original, pySub r.pat r.repl original, r.reason⟩]
      else acc) acc original = acc ++ [x] := by
  dsimp only
  split
  · split
    · exact Or.inl rfl
    · exact Or.inr ⟨_, rfl⟩
  · exact Or.inl rfl

/-- `applyRule` only appends to the collected corrections. -/
theorem applyRule_snd_append (se : Bool) (st : List Char × List Correction) (r : Rule) :
    ∃ suf, (applyRule se st r).2 = st.2 ++ suf := by
  simpa [applyRule] using
    foldl_append_only _ (applyRule_corr_step se r) (scanAux r.pat r.repl none st.1).1 st.2

/-- On input with at least one non-whitespace character, the Local
Corrector's corrected text is non-empty. -/
theorem apply_local_ink (text tone : List Char) (se : Bool) (h : pyStrip text ≠ []) :
    (apply_local_grammar_correction text tone se).correctedText ≠ [] := by
  have hink : ∃ c ∈ text, isSpC c = false := by
    by_contra hni
    push_neg at hni
    refine h ((pyStrip_eq_nil_iff text).mpr (fun c hc => ?_))
    have := hni c hc
    revert this
    cases isSpC c <;> simp
  have hpres := foldl_applyRule_pres se grammar_rules grammar_rules_pres (text, []) hink
  intro hnil
  simp only [apply_local_grammar_correction] at hnil
  obtain ⟨c, hc, hcs⟩ := hpres
  have := (pyStrip_eq_nil_iff _).mp hnil c hc
  rw [this] at hcs
  cases hcs

/-- The there-rule matches at the start of `"There is"`/`"There are"`
followed by end-of-text or a non-word character, consuming exactly the
phrase and capturing its second word. -/
theorem there_matchAt (v b' : List Char)
    (hv : v = "is".toList ∨ v = "are".toList) (hb : headNonWord b' = true) :
    matchAt thereRule.pat none (("There ".toList ++ v) ++ b') =
      some (("There ".toList ++ v).length, v) := by
  rcases hv with hv | hv
  · subst hv
    show matchAt thereRule.pat none ("There is".toList ++ b') = some (8, "is".toList)
    cases b' with
    | nil => decide
    | cons w t =>
      have hw' : (w.isAlpha || w.isDigit || w == '_') = false := by
        simpa [headNonWord, isWordChar] using hb
      simp [thereRule, lits, lstr, lic, matchAt, stepStates, stepElem, atBoundary, maxRun,
        matchChars, isSpC, isWordChar, lowerChar, List.range_succ_eq_map, lastOr, hw']
  · subst hv
    show matchAt thereRule.pat none ("There are".toList ++ b') = some (9, "are".toList)
    cases b' with
    | nil => decide
    | cons w t =>
      have hw' : (w.isAlpha || w.isDigit || w == '_') = false := by
        simpa [headNonWord, isWordChar] using hb
      simp [thereRule, lits, lstr, lic, matchAt, stepStates, stepElem, atBoundary, maxRun,
        matchChars, isSpC, isWordChar, lowerChar, List.range_succ_eq_map, lastOr, hw']

/-- The there-rule's template expands to the literal lowercase "there "
followed by the captured word. -/
theorem expandRepl_there (v : List Char) :
    expandRepl thereRule.repl v = "there ".toList ++ v := by
  simp [thereRule, expandRepl, rstr]

/-- Stripping a list that starts and ends with non-whitespace keeps the
leading prefix in place. -/
theorem pyStrip_append (pre t : List Char) (hne : pre ≠ [])
    (hh : isSpC (pre.headD 'x') = false) (hl : isSpC (pre.getLastD 'x') = false) :
    ∃ t', pyStrip (pre ++ t) = pre ++ t' := by
  obtain ⟨c, pre', rfl⟩ : ∃ c pre', pre = c :: pre' := by
    cases pre with
    | nil => exact absurd rfl hne
    | cons c pre' => exact ⟨c, pre', rfl⟩
  have hc : isSpC c = false := by simpa using hh
  unfold pyStrip
  have h1 : List.dropWhile isSpC ((c :: pre') ++ t) = (c :: pre') ++ t := by
    rw [List.cons_append, List.dropWhile_cons, hc]
    simp
  rw [h1, List.reverse_append, List.dropWhile_append]
  obtain ⟨d, rest, hrev⟩ : ∃ d rest, (c :: pre').reverse = d :: rest := by
    cases hrev : (c :: pre').reverse with
    | nil => exact absurd hrev (by simp)
    | cons d rest => exact ⟨d, rest, rfl⟩
  have hdlast : isSpC d = false := by
    have : (c :: pre').getLast? = some d := by
      rw [← List.head?_reverse, hrev]; rfl
    have hgl : (c :: pre').getLastD 'x' = d := by
      simp [List.getLastD_eq_getLast?, this]
    rwa [hgl] at hl
  have h2 : List.dropWhile isSpC (c :: pre').reverse = (c :: pre').reverse := by
    rw [hrev, List.dropWhile_cons, hdlast]
    simp
  by_cases he : (List.dropWhile isSpC t.reverse).isEmpty
  · rw [if_pos he, h2, List.reverse_reverse]
    exact ⟨[], by simp⟩
  · rw [if_neg he, List.reverse_append, List.reverse_reverse]
    exact ⟨(List.dropWhile isSpC t.reverse).reverse, rfl⟩

/-- An element appended within the first ten positions survives the
ten-entry truncation. -/
theorem mem_take_append (l₁ l₂ : List Correction) (x : Correction)
    (h : l₁.length < 10) : x ∈ (l₁ ++ x :: l₂).take 10 := by
  rw [List.take_append_eq_append_take,
    List.take_of_length_le (by omega : l₁.length ≤ 10)]
  obtain ⟨k, hk⟩ : ∃ k, 10 - l₁.length = k + 1 := ⟨10 - l₁.length - 1, by omega⟩
  rw [hk, List.take_succ_cons]
  exact List.mem_append_right _ (List.mem_cons_self _ _)

/-- Applying a rule that cannot match inside the prefix keeps the prefix
in the text and only appends to the corrections. -/
theorem applyRule_skip (se : Bool) (r : Rule) (pre t : List Char)
    (cor : List Correction) (h : NoMatchAlong r.pat pre t none) :
    ∃ t' suf, applyRule se (pre ++ t, cor) r = (pre ++ t', cor ++ suf) := by
  obtain ⟨suf, hsuf⟩ := foldl_append_only _ (applyRule_corr_step se r)
    (scanAux r.pat r.repl none (pre ++ t)).1 cor
  refine ⟨(scanAux r.pat r.repl (lastOr pre none) t).2, suf, ?_⟩
  simp only [applyRule, scan_skip r.pat r.repl pre t none h] at hsuf ⊢
  rw [hsuf]

/-- Folding rules that cannot match inside the prefix keeps the prefix in
the text and only appends to the corrections. -/
theorem foldl_applyRule_skip (se : Bool) (pre : List Char) :
    ∀ (rs : List Rule), (∀ r ∈ rs, ∀ t0, NoMatchAlong r.pat pre t0 none) →
      ∀ (t : List Char) (cor : List Correction),
        ∃ t' suf, rs.foldl (applyRule se) (pre ++ t, cor) = (pre ++ t', cor ++ suf) := by
  intro rs
  induction rs with
  | nil => intro _ t cor; exact ⟨t, [], by simp⟩
  | cons r rs ih =>
    intro hall t cor
    obtain ⟨t1, suf1, h1⟩ :=
      applyRule_skip se r pre t cor (hall r (List.mem_cons_self _ _) t)
    obtain ⟨t2, suf2, h2⟩ :=
      ih (fun r' hr' => hall r' (List.mem_cons_of_mem _ hr')) t1 (cor ++ suf1)
    exact ⟨t2, suf1 ++ suf2, by rw [List.foldl_cons, h1, h2, List.append_assoc]⟩

/-- None of the rules after the there-rule can match anywhere inside the
rewritten prefix "there is"/"there are": each fails on the concrete
prefix characters, independently of what follows. -/
theorem there_nomatch (v : List Char) (hv : v = "is".toList ∨ v = "are".toList) :
    ∀ r ∈ grammar_rules.drop 9, ∀ t, NoMatchAlong r.pat ("there ".toList ++ v) t none := by
  rcases hv with hv | hv
  · subst hv
    intro r hr t
    simp only [grammar_rules, List.drop_succ_cons, List.drop_zero] at hr
    fin_cases hr <;>
      simp [NoMatchAlong, matchAt, stepStates, stepElem, lits, lstr, lic, atBoundary,
        maxRun, matchChars, isSpC, isWordChar, lowerChar, lastOr, sp1]
  · subst hv
    intro r hr t
    simp only [grammar_rules, List.drop_succ_cons, List.drop_zero] at hr
    fin_cases hr <;>
      simp [NoMatchAlong, matchAt, stepStates, stepElem, lits, lstr, lic, atBoundary,
        maxRun, matchChars, isSpC, isWordChar, lowerChar, lastOr, sp1]

/-- Applying the there-rule to a text that begins with "There is"/"There
are" (word-bounded) rewrites the leading phrase to lowercase and appends
the corresponding correction (provided no already-collected correction
has the same original, case-insensitively). -/
theorem applyRule_there (v b' : List Char) (cor : List Correction)
    (hv : v = "is".toList ∨ v = "are".toList) (hb' : headNonWord b' = true)
    (hdup : ∀ c ∈ cor, pyLower c.original ≠ pyLower ("There ".toList ++ v)) :
    ∃ t suf, applyRule true (("There ".toList ++ v) ++ b', cor) thereRule =
      (("there ".toList ++ v) ++ t,
       cor ++ (⟨"There ".toList ++ v, "there ".toList ++ v,
         thereRule.reason⟩ : Correction) :: suf) := by
  have hm := there_matchAt v b' hv hb'
  have hlen0 : ("There ".toList ++ v).length ≠ 0 := by
    rcases hv with h | h <;> subst h <;> decide
  have hne : (("There ".toList ++ v) ++ b') ≠ [] := by
    rcases hv with h | h <;> subst h <;> simp
  have hscan := scanAux_match thereRule.pat thereRule.repl none
      (("There ".toList ++ v) ++ b') ("There ".toList ++ v).length v hm hlen0 hne
  rw [List.take_left, List.drop_left, expandRepl_there] at hscan
  have hfix : pySub thereRule.pat thereRule.repl ("There ".toList ++ v) =
      "there ".toList ++ v := by
    rcases hv with h | h <;> subst h <;> decide
  have hneq : "There ".toList ++ v ≠ "there ".toList ++ v := by
    rcases hv with h | h <;> subst h <;> decide
  have hany : cor.any (fun c => pyLower c.original == pyLower ("There ".toList ++ v)) =
      false := by
    rw [List.any_eq_false]
    intro c hc
    simpa using hdup c hc
  obtain ⟨suf, hsuf⟩ := foldl_append_only _ (applyRule_corr_step true thereRule)
    (scanAux thereRule.pat thereRule.repl (lastOr ("There ".toList ++ v) none) b').1
    (cor ++ [⟨"There ".toList ++ v, "there ".toList ++ v, thereRule.reason⟩])
  refine ⟨(scanAux thereRule.pat thereRule.repl
      (lastOr ("There ".toList ++ v) none) b').2, suf, ?_⟩
  simp only [applyRule, hscan, List.foldl_cons, hfix, hany]
  rw [if_pos (⟨hneq, trivial⟩ : ("There ".toList ++ v ≠ "there ".toList ++ v) ∧ True)]
  rw [if_neg (show ¬(false = true) by simp)]
  simp only [eq_self_iff_true, and_true] at hsuf ⊢
  rw [hsuf]
  simp

/-! ## Claim theorems -/

/-- C2 (counterexample): the whitespace-only input " " is non-empty, yet
the Local Corrector (and `enhance_text` through it) returns an empty
`correctedText`, because the final `strip()` removes everything. -/
theorem C2_counterexample :
    " ".toList ≠ ([] : List Char) ∧
    (apply_local_grammar_correction " ".toList "original".toList true).correctedText = [] ∧
    (enhance_text none " ".toList "original".toList true).correctedText =
      Json.jstr [] :=
  ⟨by decide, by decide, rfl⟩

/-- C2 (amended): for every input containing at least one non-whitespace
character (equivalently, whose trimmed form is non-empty), the Local
Corrector's `correctedText` is present and non-empty, `enhance_text` on
the non-LLM path returns exactly it, and on the terminal failure path
(unparseable LLM reply) `correctedText` equals the original, likewise
non-empty input text. -/
theorem C2_amended (text tone : List Char) (se : Bool) (raw e : List Char)
    (h : pyStrip text ≠ [])
    (hparse : parseJson (pyStrip (stripFences (pyStrip raw))) = .error e) :
    (apply_local_grammar_correction text tone se).correctedText ≠ [] ∧
    (enhance_text none text tone se).correctedText =
      Json.jstr (apply_local_grammar_correction text tone se).correctedText ∧
    (enhance_text (some raw) text tone se).correctedText = Json.jstr text ∧
    text ≠ [] := by
  refine ⟨apply_local_ink text tone se h, rfl, ?_, ?_⟩
  · simp [enhance_text, hparse]
  · intro hnil; subst hnil; exact h rfl

/-- C2 (witness for the amended theorem at a concrete input). -/
theorem C2_amended_witness :
    (apply_local_grammar_correction "he are ok".toList "original".toList
      true).correctedText ≠ [] ∧
    (enhance_text none "he are ok".toList "original".toList true).correctedText =
      Json.jstr (apply_local_grammar_correction "he are ok".toList "original".toList
        true).correctedText ∧
    (enhance_text (some "oops".toList) "he are ok".toList "original".toList
      true).correctedText = Json.jstr "he are ok".toList ∧
    "he are ok".toList ≠ [] :=
  C2_amended "he are ok".toList "original".toList true "oops".toList
    "Expecting value".toList (by decide) rfl

/-- C3 (counterexample): on "he are happy and their going home" the Local
Corrector does not return "He is happy and they're going home" — no rule
capitalizes a sentence-initial word, so the leading "he" stays lowercase. -/
theorem C3_counterexample :
    (apply_local_grammar_correction "he are happy and their going home".toList
      "original".toList true).correctedText ≠
    "He is happy and they're going home".toList := by decide

/-- C3 (amended): on "he are happy and their going home" the Local
Corrector returns exactly "he is happy and they're going home" (the
subject-verb rule preserves the lowercase captured subject), with the
subject-verb agreement rule and the their→they're contraction rule both
firing, in that order. -/
theorem C3_amended :
    apply_local_grammar_correction "he are happy and their going home".toList
      "original".toList true =
    ⟨"he is happy and they're going home".toList,
     [⟨"he are".toList, "he is".toList,
       "Subject-verb agreement: \"are\" → \"is\"".toList⟩,
      ⟨"their going".toList, "they're going".toList,
       "Contraction: \"their\" → \"they're\"".toList⟩]⟩ := by decide

/-- C5: on "i am i am" with showExplanations=true the Local Corrector
reports exactly one Improvement, for `original = "i"`, not two: the
second occurrence is deduplicated case-insensitively. -/
theorem C5_dedup :
    apply_local_grammar_correction "i am i am".toList "original".toList true =
    ⟨"I am I am".toList,
     [⟨"i".toList, "I".toList, "Capitalization: pronoun \"i\" → \"I\"".toList⟩]⟩ := by
  decide

/-- C6: on "I recieve seperate occured events" with showExplanations=true
the Local Corrector returns exactly "I receive separate occurred events"
with exactly three Improvements whose reasons are the three matching
spelling-rule descriptions (in rule-declaration order). -/
theorem C6_spelling :
    apply_local_grammar_correction "I recieve seperate occured events".toList
      "original".toList true =
    ⟨"I receive separate occurred events".toList,
     [⟨"recieve".toList, "receive".toList,
       "Spelling: \"recieve\" → \"receive\"".toList⟩,
      ⟨"occured".toList, "occurred".toList,
       "Spelling: \"occured\" → \"occurred\"".toList⟩,
      ⟨"seperate".toList, "separate".toList,
       "Spelling: \"seperate\" → \"separate\"".toList⟩]⟩ := by decide

/-- C9: the Local Corrector is a deterministic function of the text and
the flag alone — repeated calls agree, and the tone argument has no
effect on its output. -/
theorem C9_deterministic_tone_ignored (text tone tone' : List Char) (se : Bool) :
    apply_local_grammar_correction text tone se =
      apply_local_grammar_correction text tone se ∧
    apply_local_grammar_correction text tone se =
      apply_local_grammar_correction text tone' se :=
  ⟨rfl, rfl⟩

/-- C1 (counterexample): with a malformed-JSON LLM reply ("oops") on input
"i am", `enhance_text` does not fall through to the Local Corrector: it
returns the original text with an `error` field set, while the Local
Corrector would have returned "I am". -/
theorem C1_counterexample :
    (enhance_text (some "oops".toList) "i am".toList "original".toList true).error =
      some "Expecting value".toList ∧
    (enhance_text (some "oops".toList) "i am".toList "original".toList true).correctedText =
      Json.jstr "i am".toList ∧
    (apply_local_grammar_correction "i am".toList "original".toList true).correctedText =
      "I am".toList ∧
    "i am".toList ≠ "I am".toList :=
  ⟨rfl, rfl, by decide, by decide⟩

/-- C1 (amended): only failures of the LLM invocation itself (SDK/key
missing, or `generate_content` raising) fall through to the Local
Corrector with no error surfaced; a reply that is received but is
malformed JSON is surfaced as a terminal error result carrying the
unmodified original text. -/
theorem C1_amended (text tone : List Char) (se : Bool) (raw e : List Char)
    (hparse : parseJson (pyStrip (stripFences (pyStrip raw))) = .error e) :
    (enhance_text none text tone se).error = none ∧
    (enhance_text none text tone se).correctedText =
      Json.jstr (apply_local_grammar_correction text tone se).correctedText ∧
    enhance_text (some raw) text tone se =
      ⟨Json.jstr text, Json.jarr [], some e⟩ := by
  refine ⟨rfl, rfl, ?_⟩
  simp [enhance_text, hparse]

/-- C1 (witness for the amended theorem at a concrete input). -/
theorem C1_amended_witness :
    (enhance_text none "x".toList "original".toList true).error = none ∧
    (enhance_text none "x".toList "original".toList true).correctedText =
      Json.jstr (apply_local_grammar_correction "x".toList "original".toList
        true).correctedText ∧
    enhance_text (some "oops".toList) "x".toList "original".toList true =
      ⟨Json.jstr "x".toList, Json.jarr [], some "Expecting value".toList⟩ :=
  C1_amended "x".toList "original".toList true "oops".toList
    "Expecting value".toList rfl

/-- C7: POST /api/enhance returns 400 with body `{error: "Text is
required"}` exactly when the text field is missing, or (after the
`data.get` default) empty or whitespace-only; and in that case the
response does not depend on the LLM outcome at all — the correction
pipeline is not consulted. -/
theorem C7_blank_rejected (llm llm' : Option (List Char))
    (textField : Option (List Char)) (tone : List Char) (se : Bool) :
    (api_enhance llm textField tone se =
        (400, Json.jobj [("error".toList, Json.jstr "Text is required".toList)]) ↔
      (textField = none ∨ pyStrip (textField.getD []) = [])) ∧
    ((textField = none ∨ pyStrip (textField.getD []) = []) →
      api_enhance llm textField tone se = api_enhance llm' textField tone se) := by
  have hiff : (textField.getD [] = [] ∨ pyStrip (textField.getD []) = []) ↔
      (textField = none ∨ pyStrip (textField.getD []) = []) := by
    cases textField with
    | none => simp
    | some v =>
      simp only [Option.getD_some, reduceCtorEq, false_or]
      constructor
      · rintro (h | h)
        · rw [h]; rfl
        · exact h
      · exact Or.inr
  by_cases hc : (textField.getD [] = [] ∨ pyStrip (textField.getD []) = [])
  · have h400 : ∀ llmx : Option (List Char), api_enhance llmx textField tone se =
        (400, Json.jobj [("error".toList, Json.jstr "Text is required".toList)]) := by
      intro llmx
      simp [api_enhance, hc]
    exact ⟨by rw [h400 llm]; simp [hiff.mp hc],
           fun _ => (h400 llm).trans (h400 llm').symm⟩
  · have hne : (api_enhance llm textField tone se).1 ≠ 400 := by
      simp only [api_enhance, if_neg hc]
      cases he : (enhance_text llm (textField.getD []) tone se).error <;> simp [he]
    constructor
    · constructor
      · intro h400
        exact absurd (by rw [h400]) hne
      · intro hr
        exact absurd (hiff.mpr hr) hc
    · intro hr
      exact absurd (hiff.mpr hr) hc

/-- C7 (witness at a concrete input: a whitespace-only text is rejected
with 400 and the response is the same whatever the LLM outcome). -/
theorem C7_blank_rejected_witness :
    (api_enhance none (some "   ".toList) "original".toList true =
      (400, Json.jobj [("error".toList, Json.jstr "Text is required".toList)])) ∧
    api_enhance none (some "   ".toList) "original".toList true =
      api_enhance (some "x".toList) (some "   ".toList) "original".toList true :=
  ⟨(C7_blank_rejected none (some "x".toList) (some "   ".toList) "original".toList
      true).1.mpr (Or.inr (by decide)),
   (C7_blank_rejected none (some "x".toList) (some "   ".toList) "original".toList
      true).2 (Or.inr (by decide))⟩

/-- C8 (counterexample): a credential that is set but empty is neither
unset nor the placeholder, yet `api_configured` is false for it (Python
truthiness of the empty string). -/
theorem C8_counterexample :
    api_configured (some []) = false ∧
    some ([] : List Char) ≠ (none : Option (List Char)) ∧
    ([] : List Char) ≠ "your-api-key-here".toList := by decide

/-- C8 (amended): `api_configured` is false exactly when the credential is
unset, set to the empty string, or equal to the placeholder literal; it
is true for every other value. -/
theorem C8_amended (env : Option (List Char)) :
    api_configured env = false ↔
      env = none ∨ env = some [] ∨ env = some "your-api-key-here".toList := by
  cases env with
  | none => simp [api_configured, GEMINI_API_KEY]
  | some v =>
    simp only [api_configured, GEMINI_API_KEY, Option.getD_some,
      Option.some.injEq, reduceCtorEq, false_or]
    simp [Bool.and_eq_false_iff, bne_eq_false_iff_eq]
    tauto

/-- C4 (counterexample): `enhance_text` does not cap the improvements list
at 10 on the LLM path — a well-formed reply carrying 11 improvements is
passed through with all 11 entries. -/
theorem C4_counterexample :
    ¬ (enhance_text
        (some "\x7b\"correctedText\": \"x\", \"improvements\": [1,2,3,4,5,6,7,8,9,10,11]\x7d".toList)
        "hi".toList "original".toList true).improvements.arrLen ≤ 10 := by decide

/-- C4 (amended): the Local Corrector's improvements list always has at
most 10 entries, and is empty whenever showExplanations is false;
`enhance_text` returns an empty improvements array whenever
showExplanations is false (on every path), and at most 10 entries
whenever the Local Corrector supplies the result (the cap does not apply
to improvements received from the LLM). -/
theorem C4_amended (text tone : List Char) (se : Bool) (llm : Option (List Char)) :
    (apply_local_grammar_correction text tone se).improvements.length ≤ 10 ∧
    (apply_local_grammar_correction text tone false).improvements = [] ∧
    (enhance_text llm text tone false).improvements = Json.jarr [] ∧
    (enhance_text none text tone se).improvements.arrLen ≤ 10 := by
  refine ⟨?_, ?_, ?_, ?_⟩
  · simpa [apply_local_grammar_correction] using
      List.length_take_le 10 (grammar_rules.foldl (applyRule se) (text, [])).2
  · simp [apply_local_grammar_correction, foldl_applyRule_false_snd]
  · cases llm with
    | none => rfl
    | some raw =>
      cases hp : parseJson (pyStrip (stripFences (pyStrip raw))) with
      | error e => simp [enhance_text, hp]
      | ok j => cases j <;> simp [enhance_text, hp]
  · cases se with
    | false => exact Nat.zero_le 10
    | true =>
      simpa [enhance_text, localPayload, jget, Json.arrLen,
        apply_local_grammar_correction] using
        List.length_take_le 10 (grammar_rules.foldl (applyRule true) (text, [])).2

/-- C10 (counterexample): an input containing "There is" without a word
boundary before it ("xThere is") is returned unchanged with no
improvements — the claim's "any input containing" is too strong. -/
theorem C10_counterexample :
    List.IsInfix "There is".toList "xThere is".toList ∧
    apply_local_grammar_correction "xThere is".toList "original".toList true =
      ⟨"xThere is".toList, []⟩ :=
  ⟨⟨['x'], [], by decide⟩, by decide⟩

/-- C10 (amended): the rule table contains the there-rule, whose
replacement is the literal lowercase "there " followed by the captured
word.  For any input that begins with "There is" or "There are" followed
by end-of-text or a non-word character, provided the eight earlier rules
leave that leading phrase in place and have recorded fewer than ten
improvements, none of them for the same phrase, the Local Corrector with
showExplanations=true returns a correctedText that begins with the
lowercase "there is"/"there are" and an improvements list containing
{original: "There is/are", fixed: "there is/are", reason: 'Phrase:
"there is/are" is correct'} — already-correct capitalized text is
modified and reported as a fix. -/
theorem C10_amended (v b b' tone : List Char)
    (hv : v = "is".toList ∨ v = "are".toList)
    (hb : headNonWord b = true)
    (hst : ((grammar_rules.take 8).foldl (applyRule true)
      (("There ".toList ++ v) ++ b, [])).1 = ("There ".toList ++ v) ++ b')
    (hb' : headNonWord b' = true)
    (hlen : ((grammar_rules.take 8).foldl (applyRule true)
      (("There ".toList ++ v) ++ b, [])).2.length < 10)
    (hdup : ∀ c ∈ ((grammar_rules.take 8).foldl (applyRule true)
      (("There ".toList ++ v) ++ b, [])).2,
      pyLower c.original ≠ pyLower ("There ".toList ++ v)) :
    thereRule ∈ grammar_rules ∧
    thereRule.repl = [ReplPart.str "there ".toList, ReplPart.g1] ∧
    (∃ t', (apply_local_grammar_correction (("There ".toList ++ v) ++ b) tone
      true).correctedText = ("there ".toList ++ v) ++ t') ∧
    (⟨"There ".toList ++ v, "there ".toList ++ v, thereRule.reason⟩ : Correction) ∈
      (apply_local_grammar_correction (("There ".toList ++ v) ++ b) tone
        true).improvements := by
  refine ⟨by simp [grammar_rules], rfl, ?_⟩
  set st8 := (grammar_rules.take 8).foldl (applyRule true)
    (("There ".toList ++ v) ++ b, []) with hst8
  have hsplit : grammar_rules = grammar_rules.take 8 ++ thereRule :: grammar_rules.drop 9 :=
    rfl
  have hfold : grammar_rules.foldl (applyRule true) (("There ".toList ++ v) ++ b, []) =
      (grammar_rules.drop 9).foldl (applyRule true) (applyRule true st8 thereRule) := by
    conv_lhs => rw [hsplit]
    rw [List.foldl_append, List.foldl_cons]
  have hst8pair : st8 = (("There ".toList ++ v) ++ b', st8.2) := by
    rw [← hst]
  obtain ⟨t1, suf1, h9⟩ := applyRule_there v b' st8.2 hv hb' hdup
  rw [hst8pair, h9] at hfold
  obtain ⟨t2, suf2, h10⟩ := foldl_applyRule_skip true ("there ".toList ++ v)
    (grammar_rules.drop 9) (there_nomatch v hv) t1
    (st8.2 ++ (⟨"There ".toList ++ v, "there ".toList ++ v,
      thereRule.reason⟩ : Correction) :: suf1)
  rw [h10] at hfold
  constructor
  · obtain ⟨t3, h3⟩ := pyStrip_append ("there ".toList ++ v) t2
      (by rcases hv with h | h <;> subst h <;> simp)
      (by rcases hv with h | h <;> subst h <;> decide)
      (by rcases hv with h | h <;> subst h <;> decide)
    refine ⟨t3, ?_⟩
    simp only [apply_local_grammar_correction, hfold]
    exact h3
  · simp only [apply_local_grammar_correction, hfold]
    have hassoc : (st8.2 ++ (⟨"There ".toList ++ v, "there ".toList ++ v,
        thereRule.reason⟩ : Correction) :: suf1) ++ suf2 =
        st8.2 ++ (⟨"There ".toList ++ v, "there ".toList ++ v,
        thereRule.reason⟩ : Correction) :: (suf1 ++ suf2) := by simp
    rw [hassoc]
    exact mem_take_append st8.2 (suf1 ++ suf2) _ hlen

/-- C10 (witness for the amended theorem at the concrete input
"There is a cat"). -/
theorem C10_amended_witness :
    thereRule ∈ grammar_rules ∧
    thereRule.repl = [ReplPart.str "there ".toList, ReplPart.g1] ∧
    (∃ t', (apply_local_grammar_correction ("There is a cat".toList)
      "original".toList true).correctedText = "there is".toList ++ t') ∧
    (⟨"There is".toList, "there is".toList,
      "Phrase: \"there is/are\" is correct".toList⟩ : Correction) ∈
      (apply_local_grammar_correction ("There is a cat".toList)
        "original".toList true).improvements :=
  C10_amended "is".toList " a cat".toList " a cat".toList "original".toList
    (Or.inl rfl) (by decide) (by decide) (by decide) (by decide) (by decide)

end SkyWrite
